import Mathlib

/-!
# Verification of `approx_shannon_entropy` (src/src/lib.rs)

Shallow embedding of the Rust crate `approx_shannon_entropy`.

The crate computes an approximate Shannon entropy (bits per symbol) of a
byte slice, plus a length-normalized metric-entropy variant.

Modelling decisions:
* `Word = u8` is embedded as `Fin 256` (the Rust type is `u8`, whose
  values are exactly 0..255).
* `Rational = f32` arithmetic is idealized as real arithmetic (`ℝ`), and
  the injected approximate natural logarithm `F32Ext::ln` is idealized as
  the exact `Real.log`.  IEEE-754 non-finite outcomes matter only at the
  two divisions (`/` in `shannon_entropy` and in `shannon_entropy_metric`):
  those are modelled by `FpVal`, a real number extended with `±inf` and
  `nan`, and `fpDiv`, IEEE-754 division on those values (sign of zero is
  not modelled; all dividends arising here are non-negative).
* The 256-slot histogram array `word_map` is embedded as a `List ℕ`
  (created as `List.replicate 256 0`, updated positionally with
  `List.set`, exactly mirroring `[0usize; 256]` and `word_map[i] += 1`).
-/

set_option maxRecDepth 8192

namespace ApproxShannonEntropy

/-- `type Word = u8` — an 8-bit unsigned word. -/
abbrev Word : Type := Fin 256

/-- An f32 value idealized: either a finite real, an infinity, or NaN. -/
inductive FpVal : Type where
  | fin (x : ℝ)
  | posInf
  | negInf
  | nan

/-- Is an `FpVal` a finite number? -/
def FpVal.isFinite : FpVal → Bool
  | .fin _ => true
  | _ => false

/-- IEEE-754 division on idealized f32 values (signed zero is not
modelled: a zero divisor is treated as `+0.0`, which is the only zero
arising in this development). `x / 0` is `NaN` for `x = 0` and a signed
infinity otherwise; `NaN` propagates. -/
noncomputable def fpDiv : FpVal → FpVal → FpVal
  | .nan, _ => .nan
  | .fin _, .nan => .nan
  | .fin x, .fin y =>
      if y = 0 then
        if x = 0 then .nan else if 0 < x then .posInf else .negInf
      else .fin (x / y)
  | .fin _, .posInf => .fin 0
  | .fin _, .negInf => .fin 0
  | .posInf, .nan => .nan
  | .posInf, .fin y => if 0 ≤ y then .posInf else .negInf
  | .posInf, .posInf => .nan
  | .posInf, .negInf => .nan
  | .negInf, .nan => .nan
  | .negInf, .fin y => if 0 ≤ y then .negInf else .posInf
  | .negInf, .posInf => .nan
  | .negInf, .negInf => .nan

/-- One `word_map[(*word) as usize] += 1;` step: read slot `(w : ℕ)`
(0 if out of range — shown in bounds below) and write back the
incremented count. -/
def histStep (m : List ℕ) (w : Word) : List ℕ :=
  m.set (w : ℕ) (m.getD (w : ℕ) 0 + 1)

/-- The histogram pass of `shannon_entropy` (lib.rs lines 38–41):
`let mut word_map = [0usize; 256]; for word in word_slice { word_map[*word as usize] += 1; }`. -/
def word_map (word_slice : List Word) : List ℕ :=
  word_slice.foldl histStep (List.replicate 256 0)

/-- `let rat_len: Rational = word_slice.len() as Rational;` -/
noncomputable def rat_len (word_slice : List Word) : ℝ := word_slice.length

/-- `let log_div: Rational = F32Ext::ln(2.0 as Rational);` -/
noncomputable def log_div : ℝ := Real.log 2

/-- The body of the fold at lib.rs lines 49–55: a zero count leaves the
accumulator unchanged, a non-zero count `freq` adds
`freq * ln(freq / rat_len)`. -/
noncomputable def foldStep (n : ℝ) (acc : ℝ) (freq : ℕ) : ℝ :=
  if freq = 0 then acc else acc + (freq : ℝ) * Real.log ((freq : ℝ) / n)

/-- `let en_sum = word_map.iter().fold(0.0, |acc, &freq| match freq { ... });`
(lib.rs lines 47–55). -/
noncomputable def en_sum (word_slice : List Word) : ℝ :=
  (word_map word_slice).foldl (foldStep (rat_len word_slice)) 0

/-- `pub fn shannon_entropy(word_slice: &[Word]) -> Rational` (lib.rs
lines 33–60): `en_sum.abs() / (rat_len * log_div)`, with the division
taken at IEEE semantics (`FpVal`). -/
noncomputable def shannon_entropy (word_slice : List Word) : FpVal :=
  fpDiv (.fin |en_sum word_slice|) (.fin (rat_len word_slice * log_div))

/-- `pub fn shannon_entropy_metric(word_slice: &[Word]) -> Rational`
(lib.rs lines 79–81): `shannon_entropy(word_slice) / (word_slice.len() as Rational)`. -/
noncomputable def shannon_entropy_metric (word_slice : List Word) : FpVal :=
  fpDiv (shannon_entropy word_slice) (.fin (rat_len word_slice))

/-! Spec-side definitions (for the refinement claim C1), following the
words of spec.md §4.1 rather than the source. -/

/-- Modelled from the spec (§4.1 Step 2): for every histogram slot with a
non-zero count, the term `count * ln(count / n)`; slots with zero count
contribute nothing. The spec's histogram slot for symbol `i` holds the
number of occurrences of `i`, i.e. `word_slice.count i`. -/
noncomputable def specSum (word_slice : List Word) : ℝ :=
  ∑ i : Fin 256,
    if word_slice.count i = 0 then 0
    else (word_slice.count i : ℝ) *
      Real.log ((word_slice.count i : ℝ) / (word_slice.length : ℝ))

/-! ## Histogram lemmas -/

lemma histStep_length (m : List ℕ) (w : Word) : (histStep m w).length = m.length := by
  simp [histStep]

lemma foldl_histStep_length (ws : List Word) (m : List ℕ) :
    (ws.foldl histStep m).length = m.length := by
  induction ws generalizing m with
  | nil => rfl
  | cons w ws ih => rw [List.foldl_cons, ih, histStep_length]

lemma word_map_length (ws : List Word) : (word_map ws).length = 256 := by
  rw [word_map, foldl_histStep_length, List.length_replicate]

lemma histStep_getD (m : List ℕ) (w : Word) (i : Fin 256) (hm : m.length = 256) :
    (histStep m w).getD (i : ℕ) 0
      = m.getD (i : ℕ) 0 + if (w : ℕ) = (i : ℕ) then 1 else 0 := by
  have hi : (i : ℕ) < m.length := by rw [hm]; exact i.isLt
  have hi' : (i : ℕ) < (histStep m w).length := by rw [histStep_length]; exact hi
  rw [List.getD_eq_getElem _ _ hi', List.getD_eq_getElem _ _ hi]
  unfold histStep at hi' ⊢
  rw [List.getElem_set]
  by_cases h : (w : ℕ) = (i : ℕ)
  · rw [if_pos h, if_pos h, h, List.getD_eq_getElem _ _ hi]
  · rw [if_neg h, if_neg h, add_zero]

lemma foldl_histStep_getD (ws : List Word) (m : List ℕ) (i : Fin 256)
    (hm : m.length = 256) :
    (ws.foldl histStep m).getD (i : ℕ) 0 = m.getD (i : ℕ) 0 + ws.count i := by
  induction ws generalizing m with
  | nil => simp
  | cons w ws ih =>
    rw [List.foldl_cons, ih _ (by rw [histStep_length]; exact hm),
      histStep_getD m w i hm, List.count_cons]
    by_cases h : w = i
    · simp [h]
      omega
    · have h' : ((w : ℕ) = (i : ℕ)) = False := by
        simp [Fin.val_eq_val, h]
      simp [h, h']

lemma word_map_getD (ws : List Word) (i : Fin 256) :
    (word_map ws).getD (i : ℕ) 0 = ws.count i := by
  rw [word_map, foldl_histStep_getD _ _ _ (by rw [List.length_replicate])]
  have h0 : (List.replicate 256 (0 : ℕ)).getD (i : ℕ) 0 = 0 := by
    rw [List.getD_eq_getElem _ _ (by rw [List.length_replicate]; exact i.isLt),
      List.getElem_replicate]
  rw [h0, zero_add]

lemma sum_count_univ (ws : List Word) : ∑ i : Fin 256, ws.count i = ws.length := by
  induction ws with
  | nil => simp
  | cons w ws ih =>
    have hstep : ∀ i : Fin 256, (w :: ws).count i = ws.count i + if w = i then 1 else 0 := by
      intro i
      rw [List.count_cons]
      by_cases h : w = i <;> simp [h]
    rw [Finset.sum_congr rfl fun i _ => hstep i, Finset.sum_add_distrib, ih,
      Finset.sum_ite_eq Finset.univ w fun _ => 1]
    simp

lemma word_map_sum_getD (ws : List Word) :
    ∑ i : Fin 256, (word_map ws).getD (i : ℕ) 0 = ws.length := by
  rw [Finset.sum_congr rfl fun i _ => word_map_getD ws i, sum_count_univ]

lemma list_sum_eq_sum_getD (l : List ℕ) :
    l.sum = ∑ i ∈ Finset.range l.length, l.getD i 0 := by
  induction l with
  | nil => simp
  | cons a l ih =>
    rw [List.sum_cons, ih, List.length_cons, Finset.sum_range_succ']
    simp [add_comm]

lemma word_map_sum (ws : List Word) : (word_map ws).sum = ws.length := by
  rw [list_sum_eq_sum_getD, word_map_length, ← Fin.sum_univ_eq_sum_range,
    word_map_sum_getD]

/-! ## Fold-to-sum bridge for `en_sum` -/

/-- The contribution of one histogram slot holding `freq` to `en_sum`. -/
noncomputable def slotTerm (n : ℝ) (freq : ℕ) : ℝ :=
  if freq = 0 then 0 else (freq : ℝ) * Real.log ((freq : ℝ) / n)

lemma foldStep_eq_add_slotTerm (n a : ℝ) (freq : ℕ) :
    foldStep n a freq = a + slotTerm n freq := by
  unfold foldStep slotTerm
  by_cases h : freq = 0 <;> simp [h]

lemma foldl_foldStep_eq (n : ℝ) (l : List ℕ) (a : ℝ) :
    l.foldl (foldStep n) a = a + (l.map (slotTerm n)).sum := by
  induction l generalizing a with
  | nil => simp
  | cons f l ih =>
    rw [List.foldl_cons, ih, foldStep_eq_add_slotTerm, List.map_cons, List.sum_cons]
    ring

lemma map_sum_eq_range_getD (g : ℕ → ℝ) (l : List ℕ) :
    (l.map g).sum = ∑ i ∈ Finset.range l.length, g (l.getD i 0) := by
  induction l with
  | nil => simp
  | cons a l ih =>
    rw [List.map_cons, List.sum_cons, ih, List.length_cons, Finset.sum_range_succ']
    simp [add_comm]

lemma en_sum_eq_sum_count (ws : List Word) :
    en_sum ws = ∑ i : Fin 256, slotTerm (rat_len ws) (ws.count i) := by
  rw [en_sum, foldl_foldStep_eq, zero_add, map_sum_eq_range_getD, word_map_length,
    ← Fin.sum_univ_eq_sum_range]
  exact Finset.sum_congr rfl fun i _ => by rw [word_map_getD]

lemma en_sum_eq_specSum (ws : List Word) : en_sum ws = specSum ws := by
  rw [en_sum_eq_sum_count, specSum]
  exact Finset.sum_congr rfl fun i _ => by rw [slotTerm, rat_len]

/-! ## Sign and bounds of `en_sum` -/

lemma slotTerm_nonpos (ws : List Word) (c : ℕ) (hc : c ≤ ws.length) :
    slotTerm (rat_len ws) c ≤ 0 := by
  unfold slotTerm
  by_cases h : c = 0
  · simp [h]
  · rw [if_neg h]
    have hc0 : (0 : ℝ) < (c : ℝ) := by
      exact_mod_cast Nat.pos_of_ne_zero h
    have hn0 : (0 : ℝ) < rat_len ws := by
      rw [rat_len]
      exact lt_of_lt_of_le hc0 (by exact_mod_cast hc)
    have hle : (c : ℝ) / rat_len ws ≤ 1 :=
      (div_le_one hn0).mpr (by rw [rat_len]; exact_mod_cast hc)
    have hlog : Real.log ((c : ℝ) / rat_len ws) ≤ 0 :=
      Real.log_nonpos (by positivity) hle
    calc (c : ℝ) * Real.log ((c : ℝ) / rat_len ws)
        ≤ (c : ℝ) * 0 := mul_le_mul_of_nonneg_left hlog (le_of_lt hc0)
      _ = 0 := mul_zero _

lemma en_sum_nonpos (ws : List Word) : en_sum ws ≤ 0 := by
  rw [en_sum_eq_sum_count]
  exact Finset.sum_nonpos fun i _ => slotTerm_nonpos ws _ (List.count_le_length i ws)

lemma neg_slotTerm_le (ws : List Word) (hn0 : 0 < rat_len ws) (c : ℕ) :
    -slotTerm (rat_len ws) c
      ≤ (c : ℝ) * Real.log 256 + rat_len ws / 256 - (c : ℝ) := by
  unfold slotTerm
  by_cases h : c = 0
  · rw [if_pos h, h]
    simp
    positivity
  · rw [if_neg h]
    have hc0 : (0 : ℝ) < (c : ℝ) := by exact_mod_cast Nat.pos_of_ne_zero h
    have hflip : -((c : ℝ) * Real.log ((c : ℝ) / rat_len ws))
        = (c : ℝ) * Real.log (rat_len ws / (c : ℝ)) := by
      rw [show rat_len ws / (c : ℝ) = ((c : ℝ) / rat_len ws)⁻¹ by rw [inv_div],
        Real.log_inv]
      ring
    have hsplit : Real.log (rat_len ws / (c : ℝ))
        = Real.log 256 + Real.log (rat_len ws / (256 * (c : ℝ))) := by
      rw [← Real.log_mul (by norm_num)
        (by positivity : rat_len ws / (256 * (c : ℝ)) ≠ 0)]
      congr 1
      field_simp
      ring
    have hlog : Real.log (rat_len ws / (256 * (c : ℝ)))
        ≤ rat_len ws / (256 * (c : ℝ)) - 1 :=
      Real.log_le_sub_one_of_pos (by positivity)
    rw [hflip, hsplit]
    have hmul : (c : ℝ) * (rat_len ws / (256 * (c : ℝ))) = rat_len ws / 256 := by
      field_simp
      ring
    calc (c : ℝ) * (Real.log 256 + Real.log (rat_len ws / (256 * (c : ℝ))))
        ≤ (c : ℝ) * (Real.log 256 + (rat_len ws / (256 * (c : ℝ)) - 1)) := by
          apply mul_le_mul_of_nonneg_left _ (le_of_lt hc0)
          linarith
      _ = (c : ℝ) * Real.log 256 + rat_len ws / 256 - (c : ℝ) := by
          rw [mul_add, mul_sub, hmul]
          ring

lemma neg_en_sum_le (ws : List Word) (hne : ws ≠ []) :
    -en_sum ws ≤ rat_len ws * Real.log 256 := by
  have hn0 : 0 < rat_len ws := by
    rw [rat_len]
    have : 0 < ws.length := List.length_pos.mpr hne
    exact_mod_cast this
  rw [en_sum_eq_sum_count, ← Finset.sum_neg_distrib]
  have hstep := fun i : Fin 256 => neg_slotTerm_le ws hn0 (ws.count i)
  calc ∑ i : Fin 256, -slotTerm (rat_len ws) (ws.count i)
      ≤ ∑ i : Fin 256, ((ws.count i : ℝ) * Real.log 256
          + rat_len ws / 256 - (ws.count i : ℝ)) :=
        Finset.sum_le_sum fun i _ => hstep i
    _ = (∑ i : Fin 256, (ws.count i : ℝ)) * Real.log 256
          + 256 * (rat_len ws / 256) - ∑ i : Fin 256, (ws.count i : ℝ) := by
        rw [Finset.sum_sub_distrib, Finset.sum_add_distrib, ← Finset.sum_mul,
          Finset.sum_const, Finset.card_univ, Fintype.card_fin, nsmul_eq_mul]
        norm_num
    _ = rat_len ws * Real.log 256 := by
        have hsum : ∑ i : Fin 256, (ws.count i : ℝ) = rat_len ws := by
          rw [rat_len, ← sum_count_univ ws]
          push_cast
          rfl
        rw [hsum]
        ring

/-! ## Evaluation of the outer divisions -/

lemma fpDiv_fin_fin_of_ne_zero (a b : ℝ) (hb : b ≠ 0) :
    fpDiv (.fin a) (.fin b) = .fin (a / b) := by
  rw [fpDiv, if_neg hb]

lemma fpDiv_fin_zero_zero : fpDiv (.fin 0) (.fin 0) = .nan := by
  rw [fpDiv, if_pos rfl, if_pos rfl]

lemma rat_len_pos (ws : List Word) (hne : ws ≠ []) : 0 < rat_len ws := by
  rw [rat_len]
  have : 0 < ws.length := List.length_pos.mpr hne
  exact_mod_cast this

lemma log_two_pos : (0 : ℝ) < log_div := Real.log_pos (by norm_num)

/-- For a non-empty slice the returned entropy is the finite real
`|en_sum| / (len * ln 2)`, and it lies in `[0, 8]`. -/
lemma shannon_entropy_fin_bounds (ws : List Word) (hne : ws ≠ []) :
    shannon_entropy ws = .fin (|en_sum ws| / (rat_len ws * log_div))
      ∧ 0 ≤ |en_sum ws| / (rat_len ws * log_div)
      ∧ |en_sum ws| / (rat_len ws * log_div) ≤ 8 := by
  have hn0 : 0 < rat_len ws := rat_len_pos ws hne
  have hden : 0 < rat_len ws * log_div := mul_pos hn0 log_two_pos
  refine ⟨?_, ?_, ?_⟩
  · rw [shannon_entropy, fpDiv_fin_fin_of_ne_zero _ _ (ne_of_gt hden)]
  · positivity
  · rw [div_le_iff₀ hden]
    have habs : |en_sum ws| = -en_sum ws := abs_of_nonpos (en_sum_nonpos ws)
    have h256 : Real.log 256 = 8 * Real.log 2 := by
      rw [show (256 : ℝ) = 2 ^ 8 by norm_num, Real.log_pow]
      norm_num
    have := neg_en_sum_le ws hne
    rw [habs, log_div]
    calc -en_sum ws ≤ rat_len ws * Real.log 256 := this
      _ = 8 * (rat_len ws * Real.log 2) := by rw [h256]; ring

/-! ## Degenerate and constant inputs -/

lemma slotTerm_zero (n' : ℝ) : slotTerm n' 0 = 0 := by simp [slotTerm]

lemma slotTerm_self (n : ℕ) (hn : n ≠ 0) : slotTerm (n : ℝ) n = 0 := by
  rw [slotTerm, if_neg hn, div_self (by exact_mod_cast hn), Real.log_one, mul_zero]

lemma en_sum_nil : en_sum ([] : List Word) = 0 := by
  rw [en_sum, foldl_foldStep_eq, zero_add, word_map, List.foldl_nil,
    List.map_replicate, slotTerm_zero, List.sum_replicate, smul_zero]

lemma rat_len_nil : rat_len ([] : List Word) = 0 := by
  rw [rat_len, List.length_nil, Nat.cast_zero]

lemma shannon_entropy_nil : shannon_entropy ([] : List Word) = FpVal.nan := by
  rw [shannon_entropy, en_sum_nil, abs_zero, rat_len_nil, zero_mul,
    fpDiv_fin_zero_zero]

lemma shannon_entropy_metric_nil :
    shannon_entropy_metric ([] : List Word) = FpVal.nan := by
  rw [shannon_entropy_metric, shannon_entropy_nil]
  rfl

lemma rat_len_replicate (n : ℕ) (w : Word) :
    rat_len (List.replicate n w) = n := by
  rw [rat_len, List.length_replicate]

lemma en_sum_replicate (n : ℕ) (w : Word) : en_sum (List.replicate n w) = 0 := by
  rw [en_sum_eq_sum_count]
  apply Finset.sum_eq_zero
  intro i _
  rw [List.count_replicate, rat_len_replicate]
  by_cases h : w = i
  · subst h
    rw [if_pos (by simp)]
    by_cases hn : n = 0
    · rw [hn]
      simp [slotTerm]
    · exact slotTerm_self n hn
  · rw [if_neg (by simp [h])]
    exact slotTerm_zero _

lemma shannon_entropy_replicate (n : ℕ) (w : Word) (hn : n ≠ 0) :
    shannon_entropy (List.replicate n w) = FpVal.fin 0 := by
  rw [shannon_entropy, en_sum_replicate, abs_zero, rat_len_replicate,
    fpDiv_fin_fin_of_ne_zero _ _
      (mul_ne_zero (by exact_mod_cast hn) (ne_of_gt log_two_pos)), zero_div]

/-! ## The concrete test vector of `shannon_odd_slice_length` -/

/-- The test pattern `[0, 0, 0, 0, 1, 1, 2, 2, 3, 4, 5]` (lib.rs line 148). -/
def oddPattern : List Word := [0, 0, 0, 0, 1, 1, 2, 2, 3, 4, 5]

lemma word_map_oddPattern :
    word_map oddPattern = [4, 2, 2, 1, 1, 1] ++ List.replicate 250 0 := by decide

lemma rat_len_oddPattern : rat_len oddPattern = 11 := by
  rw [rat_len, oddPattern]
  norm_num

lemma en_sum_oddPattern :
    en_sum oddPattern = 12 * Real.log 2 - 11 * Real.log 11 := by
  rw [en_sum, foldl_foldStep_eq, zero_add, word_map_oddPattern, List.map_append,
    List.sum_append, List.map_replicate, slotTerm_zero, List.sum_replicate,
    smul_zero, add_zero, rat_len_oddPattern]
  have h4 : slotTerm 11 4 = 4 * Real.log (4 / 11 : ℝ) := by
    rw [slotTerm, if_neg (by norm_num)]
    norm_num
  have h2 : slotTerm 11 2 = 2 * Real.log (2 / 11 : ℝ) := by
    rw [slotTerm, if_neg (by norm_num)]
    norm_num
  have h1 : slotTerm 11 1 = Real.log (1 / 11 : ℝ) := by
    rw [slotTerm, if_neg (by norm_num)]
    norm_num
  have hl4 : Real.log (4 / 11 : ℝ) = 2 * Real.log 2 - Real.log 11 := by
    rw [Real.log_div (by norm_num) (by norm_num),
      show (4 : ℝ) = 2 ^ 2 by norm_num, Real.log_pow]
    norm_num
  have hl2 : Real.log (2 / 11 : ℝ) = Real.log 2 - Real.log 11 :=
    Real.log_div (by norm_num) (by norm_num)
  have hl1 : Real.log (1 / 11 : ℝ) = -Real.log 11 := by
    rw [one_div, Real.log_inv]
  simp only [List.map_cons, List.map_nil, List.sum_cons, List.sum_nil, h4, h2, h1,
    hl4, hl2, hl1]
  ring

lemma log_eleven_bounds :
    3 * Real.log 2 ≤ Real.log 11 ∧ Real.log 11 ≤ 4 * Real.log 2 := by
  constructor
  · calc 3 * Real.log 2 = Real.log (2 ^ 3) := by rw [Real.log_pow]; norm_num
      _ ≤ Real.log 11 := Real.log_le_log (by norm_num) (by norm_num)
  · calc Real.log 11 ≤ Real.log (2 ^ 4) :=
        Real.log_le_log (by norm_num) (by norm_num)
      _ = 4 * Real.log 2 := by rw [Real.log_pow]; norm_num

lemma entropy_oddPattern_bounds :
    shannon_entropy oddPattern
        = FpVal.fin (|en_sum oddPattern| / (rat_len oddPattern * log_div))
      ∧ 21 / 11 ≤ |en_sum oddPattern| / (rat_len oddPattern * log_div)
      ∧ |en_sum oddPattern| / (rat_len oddPattern * log_div) ≤ 32 / 11 := by
  have hne : oddPattern ≠ [] := by rw [oddPattern]; simp
  have hL2 : 0 < Real.log 2 := Real.log_pos (by norm_num)
  have h11 := log_eleven_bounds
  have habs : |en_sum oddPattern| = 11 * Real.log 11 - 12 * Real.log 2 := by
    rw [abs_of_nonpos (en_sum_nonpos oddPattern), en_sum_oddPattern]
    ring
  have hden : rat_len oddPattern * log_div = 11 * Real.log 2 := by
    rw [rat_len_oddPattern, log_div]
  have hdpos : (0 : ℝ) < 11 * Real.log 2 := by positivity
  refine ⟨(shannon_entropy_fin_bounds oddPattern hne).1, ?_, ?_⟩
  · rw [habs, hden, le_div_iff₀ hdpos]
    nlinarith [h11.1]
  · rw [habs, hden, div_le_iff₀ hdpos]
    nlinarith [h11.2]

/-! ## Claim theorems -/

/-- Claim C1: for every input sequence, `shannon_entropy` computes its result
by the spec's three-step formula — each of the 256 histogram slots with a
non-zero count contributes `count * ln(count / n)` (zero slots are skipped),
and the returned entropy is the absolute value of the accumulated sum divided
by `n * ln 2` (the division taken at IEEE semantics). -/
theorem entropy_follows_spec_three_step_formula (ws : List Word) :
    shannon_entropy ws
      = fpDiv (.fin |specSum ws|) (.fin ((ws.length : ℝ) * Real.log 2)) := by
  rw [shannon_entropy, en_sum_eq_specSum]
  rfl

/-- Claim C2: for every non-empty sequence of 8-bit symbols, the value
returned by `shannon_entropy` is a finite number in the inclusive range
`[0, 8]`. -/
theorem entropy_bounded_zero_to_eight (ws : List Word) (hne : ws ≠ []) :
    ∃ x : ℝ, shannon_entropy ws = FpVal.fin x ∧ 0 ≤ x ∧ x ≤ 8 := by
  obtain ⟨heq, h0, h8⟩ := shannon_entropy_fin_bounds ws hne
  exact ⟨_, heq, h0, h8⟩

theorem entropy_bounded_zero_to_eight_witness :
    ([(0 : Word)] : List Word) ≠ []
      ∧ ∃ x : ℝ, shannon_entropy [(0 : Word)] = FpVal.fin x ∧ 0 ≤ x ∧ x ≤ 8 :=
  ⟨by simp, entropy_bounded_zero_to_eight [(0 : Word)] (by simp)⟩

/-- Claim C3: `shannon_entropy_metric` returns exactly `shannon_entropy` of
the sequence divided by the sequence's length — as the literal source
expression for every input, and as a real-number division whenever the
sequence is non-empty. -/
theorem metric_is_entropy_div_length (ws : List Word) :
    shannon_entropy_metric ws
        = fpDiv (shannon_entropy ws) (.fin (ws.length : ℝ))
      ∧ (ws ≠ [] → ∃ e : ℝ, shannon_entropy ws = FpVal.fin e
          ∧ shannon_entropy_metric ws = FpVal.fin (e / (ws.length : ℝ))) := by
  constructor
  · rfl
  · intro hne
    obtain ⟨heq, _, _⟩ := shannon_entropy_fin_bounds ws hne
    have hlen : ((ws.length : ℕ) : ℝ) ≠ 0 :=
      Nat.cast_ne_zero.mpr (List.length_pos.mpr hne).ne'
    refine ⟨_, heq, ?_⟩
    rw [shannon_entropy_metric, heq, rat_len, fpDiv_fin_fin_of_ne_zero _ _ hlen]

theorem metric_is_entropy_div_length_witness :
    ∃ e : ℝ, shannon_entropy [(2 : Word), (2 : Word)] = FpVal.fin e
      ∧ shannon_entropy_metric [(2 : Word), (2 : Word)] = FpVal.fin (e / 2) := by
  have h := (metric_is_entropy_div_length [(2 : Word), (2 : Word)]).2 (by simp)
  simpa using h

/-- Claim C4: for every sequence of length at least 1 in which every symbol
is identical, `shannon_entropy` returns exactly `0` (stronger than the
claimed "within tolerance near zero"). -/
theorem constant_sequence_zero_entropy (n : ℕ) (w : Word) (hn : n ≠ 0) :
    shannon_entropy (List.replicate n w) = FpVal.fin 0 :=
  shannon_entropy_replicate n w hn

theorem constant_sequence_zero_entropy_witness :
    (35 ≠ 0) ∧ shannon_entropy (List.replicate 35 (0 : Word)) = FpVal.fin 0 :=
  ⟨by decide, constant_sequence_zero_entropy 35 0 (by decide)⟩

/-- Claim C5: for every input sequence (of any length), the accumulated sum
`en_sum` of the terms `count * ln(count / n)` over the non-zero histogram
slots — before the absolute value is taken — is at most zero. -/
theorem accumulated_sum_nonpositive (ws : List Word) : en_sum ws ≤ 0 :=
  en_sum_nonpos ws

/-- Claim C6: calling `shannon_entropy` on the empty sequence is safe: the
embedded function is total (no panic or undefined behavior) and returns the
IEEE value NaN — a returned value, not a signaled error, and indeed no
particular finite value. -/
theorem empty_input_returns_value :
    shannon_entropy ([] : List Word) = FpVal.nan :=
  shannon_entropy_nil

/-- Claim C7: for the empty sequence, `shannon_entropy_metric` returns a
non-finite floating-point value (NaN) rather than signaling an error. -/
theorem metric_empty_nonfinite :
    shannon_entropy_metric ([] : List Word) = FpVal.nan
      ∧ (shannon_entropy_metric ([] : List Word)).isFinite = false := by
  constructor
  · exact shannon_entropy_metric_nil
  · rw [shannon_entropy_metric_nil]
    rfl

/-- Claim C8: after the histogram pass, for every input sequence the
histogram has exactly 256 counters, each counter equals the number of
occurrences of its symbol value in the input, and the counters sum to the
length of the input. -/
theorem histogram_invariants (ws : List Word) :
    (word_map ws).length = 256
      ∧ (∀ i : Fin 256, (word_map ws).getD (i : ℕ) 0 = ws.count i)
      ∧ (word_map ws).sum = ws.length :=
  ⟨word_map_length ws, fun i => word_map_getD ws i, word_map_sum ws⟩

/-- Claim C9: on `[0,0,0,0,1,1,2,2,3,4,5]`, `shannon_entropy` returns a
finite value within the claimed tolerance (±1.0 absolute or 14% relative,
whichever is looser) of 2.04037339, and `shannon_entropy_metric` one within
the same tolerance of 0.18548849. -/
theorem odd_pattern_expected_values :
    ∃ e m : ℝ,
      shannon_entropy oddPattern = FpVal.fin e
      ∧ shannon_entropy_metric oddPattern = FpVal.fin m
      ∧ |e - 2.04037339| ≤ max 1 (0.14 * max e 2.04037339)
      ∧ |m - 0.18548849| ≤ max 1 (0.14 * max m 0.18548849) := by
  obtain ⟨heq, hlo, hhi⟩ := entropy_oddPattern_bounds
  refine ⟨|en_sum oddPattern| / (rat_len oddPattern * log_div),
    |en_sum oddPattern| / (rat_len oddPattern * log_div) / 11, heq, ?_, ?_, ?_⟩
  · rw [shannon_entropy_metric, heq, rat_len_oddPattern,
      fpDiv_fin_fin_of_ne_zero _ _ (by norm_num)]
  · refine le_trans ?_ (le_max_left _ _)
    rw [abs_le]
    constructor <;> linarith
  · refine le_trans ?_ (le_max_left _ _)
    rw [abs_le]
    constructor <;> linarith

/-- Claim C10: every histogram access in `shannon_entropy` is in bounds —
each input word, cast to an index, is strictly below the histogram length
(the statically fixed 256) — and each counter never exceeds the input
length, so the counters cannot overflow a `usize`. -/
theorem histogram_access_in_bounds (ws : List Word) :
    (∀ w ∈ ws, (w : ℕ) < (word_map ws).length)
      ∧ (∀ i : Fin 256, (word_map ws).getD (i : ℕ) 0 ≤ ws.length) := by
  constructor
  · intro w _
    rw [word_map_length]
    exact w.isLt
  · intro i
    rw [word_map_getD]
    exact List.count_le_length i ws

theorem histogram_access_in_bounds_witness :
    ((7 : Word) : ℕ) < (word_map [(7 : Word)]).length
      ∧ (word_map [(7 : Word)]).getD ((3 : Fin 256) : ℕ) 0
          ≤ ([(7 : Word)] : List Word).length :=
  ⟨(histogram_access_in_bounds [(7 : Word)]).1 7 (by simp),
    (histogram_access_in_bounds [(7 : Word)]).2 3⟩

end ApproxShannonEntropy

